import Mathlib

/-!
Verification of the transactional staging layer (`TrackingCopy`,
`TrackingCopyCache`, query evaluator) of the CasperLabs execution engine,
shallowly embedded from `execution-engine/engine/src/tracking_copy.rs`.
Supporting types from the `common`/`shared` crates (`Key`, `Value`, `Op`,
`Transform`, meters, the `utils::add` join helper) are not part of the
provided sources and are modelled from the specification.
-/

set_option maxHeartbeats 1000000

namespace CL

/-- Modelled from the spec: `Key` (common::key) — tagged identifier with
account address, contract hash and unforgeable-reference (URef) variants;
a URef carries an identifier plus optional access rights. -/
inductive Key where
  | account (addr : Nat)
  | hash (h : Nat)
  | uref (id : Nat) (rights : Option Nat)
deriving DecidableEq, Repr

/-- Modelled from the spec: `Key::normalize` strips the access rights of a URef so
that two URefs differing only in rights collide to the same cache/log entry;
other variants are unchanged. -/
def Key.normalize : Key → Key
  | .uref id _ => .uref id none
  | k => k

/-- Modelled from the spec: `Value` (common::value) — tagged payload.  The
named-reference maps of `Account`/`Contract` are the fields the overlay
interprets; remaining fields are opaque and collapsed into a `Nat`. -/
inductive Value where
  | int32 (i : Int)
  | uint128 (n : Nat)
  | uint256 (n : Nat)
  | uint512 (n : Nat)
  | namedKey (name : String) (k : Key)
  | account (urefs : List (String × Key)) (extra : Nat)
  | contract (urefs : List (String × Key)) (extra : Nat)
  | unitLeaf
deriving DecidableEq, Repr

/-- Modelled from the spec: a type mismatch carries expected-type and
actual-type strings (shared::transform::TypeMismatch). -/
structure TypeMismatch where
  expected : String
  actual : String
deriving DecidableEq, Repr

/-- Modelled from the spec: `Value::type_string`. -/
def Value.typeString : Value → String
  | .int32 _ => "Int32"
  | .uint128 _ => "UInt128"
  | .uint256 _ => "UInt256"
  | .uint512 _ => "UInt512"
  | .namedKey _ _ => "NamedKey"
  | .account _ _ => "Account"
  | .contract _ _ => "Contract"
  | .unitLeaf => "Unit"

/-- Modelled from the spec: `Transform` (shared::transform) — identity,
overwrite, typed increments, keyed-map union; a `failure` element keeps type
mismatches stable under composition. -/
inductive Transform where
  | identity
  | write (v : Value)
  | addInt32 (i : Int)
  | addUInt128 (n : Nat)
  | addUInt256 (n : Nat)
  | addUInt512 (n : Nat)
  | addKeys (m : List (String × Key))
  | failure (tm : TypeMismatch)
deriving DecidableEq, Repr

/-- Op enum (engine_state::op): `Read`, `Write`, `Add`. -/
inductive Op where
  | read
  | write
  | add
deriving DecidableEq, Repr

/-- Modelled from the spec: the op join used by `utils::add` on the ops log.
Equal variants join to themselves, a read joined onto an add is absorbed
(reads are identity), and every remaining pair joins to `Write` — in
particular `Read ⊔ Add = Write`, as pinned by the test of the repository itself,
`tracking_copy_ra` ("this Op is correct because Read+Add = Write"), and by
scenario 3 of the spec ("the op join places this at Write"). -/
def Op.join : Op → Op → Op
  | .read, .read => .read
  | .add, .add => .add
  | .add, .read => .add
  | _, _ => .write

/-! ### Association-list maps

`LinkedHashMap`, `HashMap` and `BTreeMap` are embedded as association lists;
the list order of `reads_cached` carries the LRU order (front = least
recently used, back = most recent), mirroring `linked_hash_map`. -/

/-- Map lookup on an association list (first match wins, as in the Rust
maps, whose keys are unique). -/
def alLookup {κ α : Type} [DecidableEq κ] (k : κ) : List (κ × α) → Option α
  | [] => none
  | (k₁, v) :: rest => if k₁ = k then some v else alLookup k rest

/-- Removes every binding of `k` (at most one in a map with unique keys). -/
def alRemove {κ α : Type} [DecidableEq κ] (k : κ) : List (κ × α) → List (κ × α)
  | [] => []
  | (k₁, v) :: rest =>
    if k₁ = k then alRemove k rest else (k₁, v) :: alRemove k rest

/-- Map insertion: replaces any existing binding of `k` and moves the entry
to the back (most-recent position), as `linked_hash_map::insert` does; for
the unordered `HashMap`/`BTreeMap` embeddings the position is irrelevant. -/
def alInsert {κ α : Type} [DecidableEq κ] (m : List (κ × α)) (k : κ) (v : α) :
    List (κ × α) :=
  alRemove k m ++ [(k, v)]

/-- The keys of an association list. -/
def alKeys {κ α : Type} (m : List (κ × α)) : List κ := m.map Prod.fst

/-- Modelled from the spec: the `utils::add` join helper — if the key is
present, the stored value is combined (old on the left, new on the right)
under the respective algebra; otherwise the pair is inserted. -/
def utilAdd {α : Type} (comb : α → α → α) (m : List (Key × α)) (k : Key)
    (v : α) : List (Key × α) :=
  match alLookup k m with
  | some old => alInsert m k (comb old v)
  | none => m ++ [(k, v)]

/-! ### Transform algebra (modelled from the spec) -/

/-- Wraps an integer into 32-bit signed (two-complement) range. -/
def wrap32 (i : Int) : Int := (i + 2 ^ 31) % 2 ^ 32 - 2 ^ 31

/-- Merges two named-key maps; bindings of the second map win on collision
(`AddKeys` union, later keys win). -/
def mergeKeys (m₁ m₂ : List (String × Key)) : List (String × Key) :=
  m₂.foldl (fun acc p => alInsert acc p.1 p.2) m₁

/-- Modelled from the spec: transform composition — `Identity` is neutral,
`Write` absorbs, same-variant adds sum their operands (in the
wrapping semantics of the width), `AddKeys` unions with later keys winning; any other
pair is a type mismatch, kept stable under composition by the `failure`
element. -/
def Transform.compose : Transform → Transform → Transform
  | t, .identity => t
  | .identity, t => t
  | _, .write v => .write v
  | .addInt32 a, .addInt32 b => .addInt32 (wrap32 (a + b))
  | .addUInt128 a, .addUInt128 b => .addUInt128 ((a + b) % 2 ^ 128)
  | .addUInt256 a, .addUInt256 b => .addUInt256 ((a + b) % 2 ^ 256)
  | .addUInt512 a, .addUInt512 b => .addUInt512 ((a + b) % 2 ^ 512)
  | .addKeys m₁, .addKeys m₂ => .addKeys (mergeKeys m₁ m₂)
  | .failure tm, _ => .failure tm
  | _, _ => .failure ⟨"composable transform pair", "mismatched transform variants"⟩

/-- Modelled from the spec: `apply(T, V)` — `Identity` returns the value,
`Write` returns its payload, `AddXn` requires the matching integer variant
and sums, `AddKeys` requires an `Account` or `Contract` and unions its
named-reference map; any other pairing is a `TypeMismatch` carrying the
expected- and actual-type strings. -/
def Transform.apply : Transform → Value → Except TypeMismatch Value
  | .identity, v => .ok v
  | .write w, _ => .ok w
  | .addInt32 i, .int32 j => .ok (.int32 (wrap32 (i + j)))
  | .addInt32 _, v => .error ⟨"Int32", v.typeString⟩
  | .addUInt128 i, .uint128 j => .ok (.uint128 ((i + j) % 2 ^ 128))
  | .addUInt128 _, v => .error ⟨"UInt128", v.typeString⟩
  | .addUInt256 i, .uint256 j => .ok (.uint256 ((i + j) % 2 ^ 256))
  | .addUInt256 _, v => .error ⟨"UInt256", v.typeString⟩
  | .addUInt512 i, .uint512 j => .ok (.uint512 ((i + j) % 2 ^ 512))
  | .addUInt512 _, v => .error ⟨"UInt512", v.typeString⟩
  | .addKeys m, .account urefs extra => .ok (.account (mergeKeys urefs m) extra)
  | .addKeys m, .contract urefs extra => .ok (.contract (mergeKeys urefs m) extra)
  | .addKeys _, v => .error ⟨"Account or Contract", v.typeString⟩
  | .failure tm, _ => .error tm

/-! ### TrackingCopyCache (tracking_copy.rs, lines 27-82) -/

/-- A meter (`Meter::measure`): a pure weight function on key/value pairs. -/
def MeterFn : Type := Key → Value → Nat

/-- Modelled from the spec: the count meter (`meter::count_meter::Count`)
assigns weight 1 to every entry. -/
def countMeter : MeterFn := fun _ _ => 1

/-- Modelled from the spec: the heap-size meter (`meter::heap_meter::HeapSize`)
estimates bytes occupied by key plus value. -/
def heapSizeMeter : MeterFn := fun _ v =>
  32 + match v with
  | .int32 _ => 4
  | .uint128 _ => 16
  | .uint256 _ => 32
  | .uint512 _ => 64
  | .namedKey name _ => name.length + 32
  | .account urefs extra => 8 * urefs.length + extra + 64
  | .contract urefs extra => 8 * urefs.length + extra + 64
  | .unitLeaf => 1

/-- Structure `TrackingCopyCache`: bounded read tier (LRU order: front = least
recently used), unbounded mutation tier, tracked current size, pluggable
meter.  The `Mutex` around `current_cache_size` is uncontended
(single-owner overlay) and is elided. -/
structure TCCache where
  maxCacheSize : Nat
  currentCacheSize : Nat
  readsCached : List (Key × Value)
  mutsCached : List (Key × Value)
  meter : MeterFn

/-- Constructor `TrackingCopyCache::new`. -/
def TCCache.new (maxCacheSize : Nat) (meter : MeterFn) : TCCache :=
  ⟨maxCacheSize, 0, [], [], meter⟩

/-- The eviction loop of `insert_read` (lines 54-62): while the tracked size
exceeds `max_cache_size`, pop the least-recently-used read entry and
subtract its re-measured weight; stop when the tier is exhausted. -/
def evict (m : MeterFn) (maxSize : Nat) :
    List (Key × Value) → Nat → List (Key × Value) × Nat
  | reads, current =>
    if current ≤ maxSize then (reads, current)
    else
      match reads with
      | [] => ([], current)
      | (k, v) :: rest => evict m maxSize rest (current - m k v)

/-- Method `TrackingCopyCache::insert_read` (lines 50-63): measure the element,
insert it at the most-recent position, grow the tracked size by its weight,
then run the eviction loop. -/
def TCCache.insertRead (c : TCCache) (k : Key) (v : Value) : TCCache :=
  let elementSize := c.meter k v
  let reads₁ := alInsert c.readsCached k v
  let current₁ := c.currentCacheSize + elementSize
  let out := evict c.meter c.maxCacheSize reads₁ current₁
  { c with readsCached := out.1, currentCacheSize := out.2 }

/-- Method `TrackingCopyCache::insert_write` (lines 66-68): store into the mutation
tier only. -/
def TCCache.insertWrite (c : TCCache) (k : Key) (v : Value) : TCCache :=
  { c with mutsCached := alInsert c.mutsCached k v }

/-- Method `TrackingCopyCache::get` (lines 71-77): the mutation tier is consulted
first; on miss the read tier is consulted with refresh (a hit moves the
entry to the most-recent position). -/
def TCCache.get (c : TCCache) (k : Key) : Option Value × TCCache :=
  match alLookup k c.mutsCached with
  | some v => (some v, c)
  | none =>
    match alLookup k c.readsCached with
    | some v => (some v, { c with readsCached := alInsert c.readsCached k v })
    | none => (none, c)

/-- Method `TrackingCopyCache::is_empty` (lines 79-81). -/
def TCCache.isEmpty (c : TCCache) : Bool :=
  c.readsCached.isEmpty && c.mutsCached.isEmpty

/-- Total meter weight of a list of entries. -/
def totalWeight (m : MeterFn) : List (Key × Value) → Nat
  | [] => 0
  | (k, v) :: rest => m k v + totalWeight m rest

/-- Folds a sequence of `insert_read` calls over a cache. -/
def runInsertReads (c : TCCache) (l : List (Key × Value)) : TCCache :=
  l.foldl (fun c p => c.insertRead p.1 p.2) c

/-! ### TrackingCopy (tracking_copy.rs, lines 84-287)

A backing reader (`StateReader::read`) is a pure function
`Key → Except ε (Option Value)`; the correlation id carries no semantics and
is elided.  Each operation returns its result together with the updated
overlay state: an early `?` return leaves the mutations made so far in
place, which the explicit state threading reproduces. -/

/-- A backing state reader with error type `ε`. -/
def Reader (ε : Type) : Type := Key → Except ε (Option Value)

/-- Enum `AddResult` (lines 91-96). -/
inductive AddResult where
  | success
  | keyNotFound (k : Key)
  | typeMismatch (tm : TypeMismatch)
deriving DecidableEq, Repr

/-- Enum `QueryResult` (lines 18-22). -/
inductive QueryRes where
  | success (v : Value)
  | valueNotFound (msg : String)
deriving DecidableEq, Repr

/-- The mutable state of a `TrackingCopy`: the two-tier cache and the
parallel `ops`/`fns` (transforms) logs. -/
structure TCState where
  cache : TCCache
  ops : List (Key × Op)
  fns : List (Key × Transform)

/-- Constructor `TrackingCopy::new` (lines 99-106): empty logs, cache bounded at
16·1024 under the heap-size meter. -/
def TCState.new : TCState :=
  ⟨TCCache.new (1024 * 16) heapSizeMeter, [], []⟩

/-- The cache consultation and read-through of `TrackingCopy::get`
(lines 108-122), acting on the cache alone: a cache hit (mutation tier
first, then read tier with refresh) returns the cached value; otherwise the
reader is consulted and a hit populates the read tier. -/
def cacheGetOrRead {ε : Type} (r : Reader ε) (c : TCCache) (k : Key) :
    Except ε (Option Value) × TCCache :=
  match c.get k with
  | (some v, c₁) => (.ok (some v), c₁)
  | (none, c₁) =>
    match r k with
    | .error e => (.error e, c₁)
    | .ok (some v) => (.ok (some v), c₁.insertRead k v)
    | .ok none => (.ok none, c₁)

/-- Method `TrackingCopy::get` (lines 108-122): the cache consultation above,
threaded through the overlay state.  The raw key is used — `get` does not
normalize — and ops and transforms are untouched. -/
def tcGet {ε : Type} (r : Reader ε) (tc : TCState) (k : Key) :
    Except ε (Option Value) × TCState :=
  ((cacheGetOrRead r tc.cache k).1,
    { tc with cache := (cacheGetOrRead r tc.cache k).2 })

/-- Method `TrackingCopy::read` (lines 124-137): normalize the key, delegate to
`get`; on a hit join `Op::Read` into `ops[k]` and `Transform::Identity` into
`fns[k]`; on a miss (or reader error) record nothing. -/
def tcRead {ε : Type} (r : Reader ε) (tc : TCState) (k : Key) :
    Except ε (Option Value) × TCState :=
  let kn := k.normalize
  let g := tcGet r tc kn
  match g.1 with
  | .ok (some v) =>
    (.ok (some v),
      { g.2 with
        ops := utilAdd Op.join g.2.ops kn .read
        fns := utilAdd Transform.compose g.2.fns kn .identity })
  | .ok none => (.ok none, g.2)
  | .error e => (.error e, g.2)

/-- Method `TrackingCopy::write` (lines 139-145): normalize, stage the value into
the mutation tier, join `Op::Write` and `Transform::Write(v)` into the
logs. -/
def tcWrite (tc : TCState) (k : Key) (v : Value) : TCState :=
  let kn := k.normalize
  { tc with
    cache := tc.cache.insertWrite kn v
    ops := utilAdd Op.join tc.ops kn .write
    fns := utilAdd Transform.compose tc.fns kn (.write v) }

/-- The transform derived from the variant of an addend
(lines 160-176): `Int32 → AddInt32`, `UInt* → AddUInt*`,
`NamedKey(n, k) → AddKeys({n → k})`; anything else has no derived
transform and yields the `"Int32 or UInt* or NamedKey"` mismatch. -/
def deriveTransform : Value → Option Transform
  | .int32 i => some (.addInt32 i)
  | .uint128 n => some (.addUInt128 n)
  | .uint256 n => some (.addUInt256 n)
  | .uint512 n => some (.addUInt512 n)
  | .namedKey n k => some (.addKeys [(n, k)])
  | _ => none

/-- Method `TrackingCopy::add` (lines 150-190): normalize; fetch the current value
(`KeyNotFound` when absent); derive the transform from the variant of the addend
(`TypeMismatch` otherwise); apply it to the current value (`TypeMismatch` on
failure); on success stage the new value into the mutation tier and join
`Op::Add` and the derived transform into the logs. -/
def tcAdd {ε : Type} (r : Reader ε) (tc : TCState) (k : Key) (v : Value) :
    Except ε AddResult × TCState :=
  let kn := k.normalize
  let g := tcGet r tc kn
  match g.1 with
  | .error e => (.error e, g.2)
  | .ok none => (.ok (.keyNotFound kn), g.2)
  | .ok (some curr) =>
    match deriveTransform v with
    | none =>
      (.ok (.typeMismatch ⟨"Int32 or UInt* or NamedKey", v.typeString⟩), g.2)
    | some t =>
      match t.apply curr with
      | .ok newValue =>
        (.ok .success,
          { g.2 with
            cache := g.2.cache.insertWrite kn newValue
            ops := utilAdd Op.join g.2.ops kn .add
            fns := utilAdd Transform.compose g.2.fns kn t })
      | .error tm => (.ok (.typeMismatch tm), g.2)

/-- Snapshot `ExecutionEffect` (`TrackingCopy::effect`, lines 192-194): the snapshot
of the parallel logs. -/
def tcEffect (tc : TCState) : List (Key × Op) × List (Key × Transform) :=
  (tc.ops, tc.fns)

/-- Modelled from the spec: the named-reference map (`urefs_lookup`) of an
`Account` or `Contract` value; other variants have none. -/
def Value.urefsLookup : Value → Option (List (String × Key))
  | .account urefs _ => some urefs
  | .contract urefs _ => some urefs
  | _ => none

/-- Modelled from the spec: the `{:?}` rendering of a key, used only inside
query failure messages. -/
def Key.debugStr : Key → String
  | .account n => "Account(" ++ toString n ++ ")"
  | .hash h => "Hash(" ++ toString h ++ ")"
  | .uref id none => "URef(" ++ toString id ++ ", None)"
  | .uref id (some rts) =>
    "URef(" ++ toString id ++ ", " ++ toString rts ++ ")"

/-- Modelled from the spec: the `{:?}` rendering of a value, used only
inside query failure messages. -/
def Value.debugStr (v : Value) : String := v.typeString

/-- Method `TrackingCopy::error_path_msg` (lines 272-286): the missing-key text,
the debug-rendered base key, then `/<name>` for each path element strictly
before the failing index. -/
def errorPathMsg (key : Key) (path : List String) (missingKey : String)
    (missingAtIndex : Nat) : String :=
  (path.take missingAtIndex).foldl (fun acc p => acc ++ "/" ++ p)
    (missingKey ++ " " ++ key.debugStr)

/-- Method `TrackingCopy::read_key_or_stop` (lines 256-270): read the key; a hit
continues the fold, a miss stops with `(i, msg)`, a reader error stops the
whole query. -/
def readKeyOrStop {ε : Type} (r : Reader ε) (tc : TCState) (k : Key)
    (i : Nat) : Except (Sum (Nat × String) ε) Value × TCState :=
  let g := tcRead r tc k
  match g.1 with
  | .ok (some v) => (.ok v, g.2)
  | .ok none =>
    (.error (.inl (i, "Name " ++ k.debugStr ++ " not found: ")), g.2)
  | .error e => (.error (.inr e), g.2)

/-- One step of the query fold (lines 218-242): follow `name` through the
named-reference map of an `Account` or `Contract`; any other variant, or a
missing name, short-circuits with `ValueNotFound` information. -/
def queryStep {ε : Type} (r : Reader ε) (tc : TCState) (curr : Value)
    (i : Nat) (name : String) :
    Except (Sum (Nat × String) ε) Value × TCState :=
  match curr with
  | .account urefs _ =>
    match alLookup name urefs with
    | some key => readKeyOrStop r tc key i
    | none =>
      (.error (.inl (i, "Name " ++ name ++ " not found in Account at path:")),
        tc)
  | .contract urefs _ =>
    match alLookup name urefs with
    | some key => readKeyOrStop r tc key i
    | none =>
      (.error (.inl (i, "Name " ++ name ++ " not found in Contract at path:")),
        tc)
  | other =>
    (.error (.inl (i,
      "Name " ++ name ++ " cannot be followed from value " ++ other.debugStr
        ++ " because it is neither an account nor contract. Value found at path:")),
      tc)

/-- The indexed `try_fold` over the path (lines 211-243). -/
def queryFold {ε : Type} (r : Reader ε) (tc : TCState) (curr : Value)
    (i : Nat) : List String → Except (Sum (Nat × String) ε) Value × TCState
  | [] => (.ok curr, tc)
  | name :: rest =>
    let s := queryStep r tc curr i name
    match s.1 with
    | .ok v => queryFold r s.2 v (i + 1) rest
    | .error e => (.error e, s.2)

/-- Method `TrackingCopy::query` (lines 196-254): read the base key (the always-Ok
validation elided); a missing base yields `ValueNotFound`; otherwise the
path fold either reaches a value (`Success`), stops with `(i, msg)`
(rendered through `error_path_msg`), or surfaces a reader error. -/
def tcQuery {ε : Type} (r : Reader ε) (tc : TCState) (baseKey : Key)
    (path : List String) : Except ε QueryRes × TCState :=
  let g := tcRead r tc baseKey
  match g.1 with
  | .error e => (.error e, g.2)
  | .ok none =>
    (.ok (.valueNotFound (errorPathMsg baseKey path "" 0)), g.2)
  | .ok (some baseValue) =>
    let f := queryFold r g.2 baseValue 0 path
    match f.1 with
    | .ok v => (.ok (.success v), f.2)
    | .error (.inl (i, s)) =>
      (.ok (.valueNotFound (errorPathMsg baseKey path s i)), f.2)
    | .error (.inr e) => (.error e, f.2)

/-- One overlay operation, for stating invariants over sequences. -/
inductive TCOp where
  | read (k : Key)
  | write (k : Key) (v : Value)
  | add (k : Key) (v : Value)
  | query (k : Key) (path : List String)

/-- Runs one operation, keeping only the state. -/
def runOp {ε : Type} (r : Reader ε) (tc : TCState) : TCOp → TCState
  | .read k => (tcRead r tc k).2
  | .write k v => tcWrite tc k v
  | .add k v => (tcAdd r tc k v).2
  | .query k path => (tcQuery r tc k path).2

/-- Runs a sequence of overlay operations from a state. -/
def runOps {ε : Type} (r : Reader ε) (l : List TCOp) (tc : TCState) :
    TCState :=
  l.foldl (runOp r) tc

/-- The ops log and the transforms log bind exactly the same keys. -/
def domEq (tc : TCState) : Prop :=
  ∀ k, k ∈ alKeys tc.ops ↔ k ∈ alKeys tc.fns

/-! ## Lemmas about association lists -/

@[simp]
theorem alKeys_nil {κ α : Type} : alKeys ([] : List (κ × α)) = [] := rfl

@[simp]
theorem alKeys_cons {κ α : Type} (k : κ) (v : α) (l : List (κ × α)) :
    alKeys ((k, v) :: l) = k :: alKeys l := rfl

@[simp]
theorem alKeys_append {κ α : Type} (a b : List (κ × α)) :
    alKeys (a ++ b) = alKeys a ++ alKeys b := List.map_append _ a b

theorem alLookup_alInsert_self {κ α : Type} [DecidableEq κ]
    (m : List (κ × α)) (k : κ) (v : α) :
    alLookup k (alInsert m k v) = some v := by
  induction m with
  | nil => simp [alInsert, alRemove, alLookup]
  | cons hd tl ih =>
    obtain ⟨k₁, v₁⟩ := hd
    by_cases h : k₁ = k
    · simpa [alInsert, alRemove, h] using ih
    · simpa [alInsert, alRemove, alLookup, h] using ih

theorem alLookup_alInsert_ne {κ α : Type} [DecidableEq κ]
    (m : List (κ × α)) (k k₀ : κ) (v : α) (hne : k₀ ≠ k) :
    alLookup k₀ (alInsert m k v) = alLookup k₀ m := by
  have hk' : ¬ k = k₀ := fun h => hne h.symm
  induction m with
  | nil => simp [alInsert, alRemove, alLookup, hk']
  | cons hd tl ih =>
    obtain ⟨k₁, v₁⟩ := hd
    by_cases h : k₁ = k
    · subst h
      have hk : ¬ k₁ = k₀ := fun h => hne h.symm
      simpa [alInsert, alRemove, alLookup, hk] using ih
    · by_cases h₀ : k₁ = k₀
      · simp [alInsert, alRemove, alLookup, h, h₀, hne]
      · simpa [alInsert, alRemove, alLookup, h, h₀] using ih

theorem mem_alKeys_alRemove {κ α : Type} [DecidableEq κ]
    (k k₀ : κ) (l : List (κ × α)) :
    k₀ ∈ alKeys (alRemove k l) ↔ k₀ ∈ alKeys l ∧ k₀ ≠ k := by
  induction l with
  | nil => simp [alRemove]
  | cons hd tl ih =>
    obtain ⟨k₁, v₁⟩ := hd
    by_cases h : k₁ = k
    · subst h
      rw [alRemove, if_pos rfl]
      simp only [alKeys_cons, List.mem_cons, ih]
      constructor
      · exact fun ⟨hm, hne⟩ => ⟨Or.inr hm, hne⟩
      · rintro ⟨hm | hm, hne⟩
        · exact absurd hm hne
        · exact ⟨hm, hne⟩
    · rw [alRemove, if_neg h]
      simp only [alKeys_cons, List.mem_cons, ih]
      constructor
      · rintro (hm | ⟨hm, hne⟩)
        · exact ⟨Or.inl hm, fun he => h (hm ▸ he ▸ rfl)⟩
        · exact ⟨Or.inr hm, hne⟩
      · rintro ⟨hm | hm, hne⟩
        · exact Or.inl hm
        · exact Or.inr ⟨hm, hne⟩

theorem not_mem_alKeys_alRemove {κ α : Type} [DecidableEq κ]
    (k : κ) (l : List (κ × α)) : k ∉ alKeys (alRemove k l) := by
  intro h
  exact ((mem_alKeys_alRemove k k l).mp h).2 rfl

theorem alRemove_eq_self {κ α : Type} [DecidableEq κ]
    (k : κ) (l : List (κ × α)) (h : k ∉ alKeys l) : alRemove k l = l := by
  induction l with
  | nil => rfl
  | cons hd tl ih =>
    obtain ⟨k₁, v₁⟩ := hd
    simp only [alKeys_cons, List.mem_cons, not_or] at h
    have hne : ¬ k₁ = k := fun he => h.1 he.symm
    simp [alRemove, hne, ih h.2]

theorem mem_alKeys_utilAdd {α : Type} (comb : α → α → α)
    (m : List (Key × α)) (k k₀ : Key) (v : α) :
    k₀ ∈ alKeys (utilAdd comb m k v) ↔ k₀ ∈ alKeys m ∨ k₀ = k := by
  unfold utilAdd
  cases h : alLookup k m with
  | some old =>
    simp only [alInsert, alKeys_append, List.mem_append, mem_alKeys_alRemove,
      alKeys_cons, alKeys_nil, List.mem_singleton]
    by_cases hk : k₀ = k
    · simp [hk]
    · simp [hk]
  | none =>
    simp [alKeys_append, List.mem_append]

theorem alLookup_utilAdd_present {α : Type} (comb : α → α → α)
    (m : List (Key × α)) (k : Key) (v old : α)
    (h : alLookup k m = some old) :
    alLookup k (utilAdd comb m k v) = some (comb old v) := by
  unfold utilAdd
  rw [h]
  exact alLookup_alInsert_self m k (comb old v)

/-! ## Lemmas about weights and eviction -/

@[simp]
theorem totalWeight_nil (mt : MeterFn) : totalWeight mt [] = 0 := rfl

@[simp]
theorem totalWeight_cons (mt : MeterFn) (k : Key) (v : Value)
    (l : List (Key × Value)) :
    totalWeight mt ((k, v) :: l) = mt k v + totalWeight mt l := rfl

theorem totalWeight_append (mt : MeterFn) (a b : List (Key × Value)) :
    totalWeight mt (a ++ b) = totalWeight mt a + totalWeight mt b := by
  induction a with
  | nil => simp
  | cons hd tl ih =>
    obtain ⟨k, v⟩ := hd
    simp [ih, Nat.add_assoc]

theorem totalWeight_alRemove_le (mt : MeterFn) (k : Key)
    (l : List (Key × Value)) :
    totalWeight mt (alRemove k l) ≤ totalWeight mt l := by
  induction l with
  | nil => simp [alRemove]
  | cons hd tl ih =>
    obtain ⟨k₁, v₁⟩ := hd
    by_cases h : k₁ = k
    · simp only [alRemove, if_pos h, totalWeight_cons]
      omega
    · simp only [alRemove, if_neg h, totalWeight_cons]
      omega

theorem alLookup_weight_le (mt : MeterFn) (k : Key) (v : Value)
    (l : List (Key × Value)) (h : alLookup k l = some v) :
    mt k v ≤ totalWeight mt l := by
  induction l with
  | nil => simp [alLookup] at h
  | cons hd tl ih =>
    obtain ⟨k₁, v₁⟩ := hd
    by_cases hk : k₁ = k
    · subst hk
      rw [alLookup, if_pos rfl] at h
      injection h with hv
      subst hv
      simp
    · rw [alLookup, if_neg hk] at h
      have := ih h
      simp only [totalWeight_cons]
      omega

theorem totalWeight_alRemove_of_nodup (mt : MeterFn) (k : Key) (v : Value)
    (l : List (Key × Value)) (h : alLookup k l = some v)
    (hnd : (alKeys l).Nodup) :
    totalWeight mt (alRemove k l) = totalWeight mt l - mt k v := by
  induction l with
  | nil => simp [alLookup] at h
  | cons hd tl ih =>
    obtain ⟨k₁, v₁⟩ := hd
    simp only [alKeys_cons, List.nodup_cons] at hnd
    by_cases hk : k₁ = k
    · subst hk
      rw [alLookup, if_pos rfl] at h
      injection h with hv
      subst hv
      rw [alRemove, if_pos rfl, alRemove_eq_self k₁ tl hnd.1]
      simp
    · rw [alLookup, if_neg hk] at h
      have hle := alLookup_weight_le mt k v tl h
      rw [alRemove, if_neg hk]
      simp only [totalWeight_cons, ih h hnd.2]
      omega

theorem evict_le_or_nil (mt : MeterFn) (mx : Nat) :
    ∀ (reads : List (Key × Value)) (cur : Nat),
      (evict mt mx reads cur).2 ≤ mx ∨ (evict mt mx reads cur).1 = [] := by
  intro reads
  induction reads with
  | nil =>
    intro cur
    by_cases h : cur ≤ mx
    · rw [evict, if_pos h]
      exact Or.inl h
    · rw [evict, if_neg h]
      exact Or.inr rfl
  | cons hd tl ih =>
    intro cur
    obtain ⟨k, v⟩ := hd
    by_cases h : cur ≤ mx
    · rw [evict, if_pos h]
      exact Or.inl h
    · rw [evict, if_neg h]
      exact ih (cur - mt k v)

theorem evict_weight_le (mt : MeterFn) (mx : Nat) :
    ∀ (reads : List (Key × Value)) (cur : Nat),
      totalWeight mt reads ≤ cur →
      totalWeight mt (evict mt mx reads cur).1 ≤ (evict mt mx reads cur).2 := by
  intro reads
  induction reads with
  | nil =>
    intro cur h
    by_cases hle : cur ≤ mx
    · rw [evict, if_pos hle]; exact h
    · rw [evict, if_neg hle]; simp
  | cons hd tl ih =>
    intro cur h
    obtain ⟨k, v⟩ := hd
    by_cases hle : cur ≤ mx
    · rw [evict, if_pos hle]; exact h
    · rw [evict, if_neg hle]
      apply ih
      simp only [totalWeight_cons] at h
      omega

theorem evict_eq_drop (mt : MeterFn) (mx : Nat) :
    ∀ (reads : List (Key × Value)) (cur : Nat),
      ∃ n, (evict mt mx reads cur).1 = reads.drop n := by
  intro reads
  induction reads with
  | nil =>
    intro cur
    by_cases h : cur ≤ mx
    · exact ⟨0, by rw [evict, if_pos h]; simp⟩
    · exact ⟨0, by rw [evict, if_neg h]; simp⟩
  | cons hd tl ih =>
    intro cur
    obtain ⟨k, v⟩ := hd
    by_cases h : cur ≤ mx
    · exact ⟨0, by rw [evict, if_pos h]; simp⟩
    · obtain ⟨n, hn⟩ := ih (cur - mt k v)
      exact ⟨n + 1, by rw [evict, if_neg h]; simpa using hn⟩

theorem evict_of_le (mt : MeterFn) (mx : Nat) (reads : List (Key × Value))
    (cur : Nat) (h : cur ≤ mx) : evict mt mx reads cur = (reads, cur) := by
  cases reads with
  | nil => rw [evict, if_pos h]
  | cons hd tl => rw [evict, if_pos h]

/-! ## Lemmas about the cache operations -/

@[simp]
theorem insertRead_maxCacheSize (c : TCCache) (k : Key) (v : Value) :
    (c.insertRead k v).maxCacheSize = c.maxCacheSize := rfl

@[simp]
theorem insertRead_meter (c : TCCache) (k : Key) (v : Value) :
    (c.insertRead k v).meter = c.meter := rfl

@[simp]
theorem insertRead_mutsCached (c : TCCache) (k : Key) (v : Value) :
    (c.insertRead k v).mutsCached = c.mutsCached := rfl

theorem totalWeight_alInsert_le (mt : MeterFn) (l : List (Key × Value))
    (k : Key) (v : Value) :
    totalWeight mt (alInsert l k v) ≤ totalWeight mt l + mt k v := by
  rw [alInsert, totalWeight_append]
  have := totalWeight_alRemove_le mt k l
  simp only [totalWeight_cons, totalWeight_nil]
  omega

/-- One `insert_read` preserves the accounting invariant
(tracked size dominates the weight of the read tier) and establishes the bound
(tracked size at most `max_cache_size`, or the read tier is empty). -/
theorem insertRead_weight_invariant (c : TCCache) (k : Key) (v : Value)
    (h : totalWeight c.meter c.readsCached ≤ c.currentCacheSize) :
    totalWeight c.meter (c.insertRead k v).readsCached
        ≤ (c.insertRead k v).currentCacheSize ∧
      ((c.insertRead k v).currentCacheSize ≤ c.maxCacheSize ∨
        (c.insertRead k v).readsCached = []) := by
  unfold TCCache.insertRead
  refine ⟨?_, ?_⟩
  · apply evict_weight_le
    have h₁ := totalWeight_alInsert_le c.meter c.readsCached k v
    omega
  · exact evict_le_or_nil c.meter c.maxCacheSize _ _

@[simp]
theorem runInsertReads_nil (c : TCCache) : runInsertReads c [] = c := rfl

theorem runInsertReads_cons (c : TCCache) (p : Key × Value)
    (l : List (Key × Value)) :
    runInsertReads c (p :: l) = runInsertReads (c.insertRead p.1 p.2) l := rfl

theorem runInsertReads_meter (l : List (Key × Value)) (c : TCCache) :
    (runInsertReads c l).meter = c.meter := by
  induction l generalizing c with
  | nil => rfl
  | cons p rest ih => rw [runInsertReads_cons, ih]; rfl

theorem runInsertReads_maxCacheSize (l : List (Key × Value)) (c : TCCache) :
    (runInsertReads c l).maxCacheSize = c.maxCacheSize := by
  induction l generalizing c with
  | nil => rfl
  | cons p rest ih => rw [runInsertReads_cons, ih]; rfl

theorem runInsertReads_mutsCached (l : List (Key × Value)) (c : TCCache) :
    (runInsertReads c l).mutsCached = c.mutsCached := by
  induction l generalizing c with
  | nil => rfl
  | cons p rest ih => rw [runInsertReads_cons, ih]; rfl

theorem runInsertReads_bound (l : List (Key × Value)) (c : TCCache)
    (h : totalWeight c.meter c.readsCached ≤ c.currentCacheSize ∧
      (c.currentCacheSize ≤ c.maxCacheSize ∨ c.readsCached = [])) :
    totalWeight (runInsertReads c l).meter (runInsertReads c l).readsCached
        ≤ (runInsertReads c l).currentCacheSize ∧
      ((runInsertReads c l).currentCacheSize
          ≤ (runInsertReads c l).maxCacheSize ∨
        (runInsertReads c l).readsCached = []) := by
  induction l generalizing c with
  | nil => simpa using h
  | cons p rest ih =>
    rw [runInsertReads_cons]
    have step := insertRead_weight_invariant c p.1 p.2 h.1
    exact ih (c.insertRead p.1 p.2) ⟨step.1, by simpa using step.2⟩

/-- Claim C1 (confirmed).  For every meter and every `max_cache_size`, after
any sequence of `insert_read` calls on a fresh `TrackingCopyCache`, the total
measured weight of the read tier is bounded by the tracked `current_cache_size`,
and the tracked size is at most `max_cache_size` unless the read tier is
empty.  (Every prefix of a sequence is itself a sequence, so the bound holds
after each individual call.) -/
theorem c1_read_cache_weight_bound (mt : MeterFn) (mx : Nat)
    (l : List (Key × Value)) :
    totalWeight mt (runInsertReads (TCCache.new mx mt) l).readsCached
        ≤ (runInsertReads (TCCache.new mx mt) l).currentCacheSize ∧
      ((runInsertReads (TCCache.new mx mt) l).currentCacheSize ≤ mx ∨
        (runInsertReads (TCCache.new mx mt) l).readsCached = []) := by
  have h := runInsertReads_bound l (TCCache.new mx mt)
    ⟨by simp [TCCache.new], by simp [TCCache.new]⟩
  rwa [runInsertReads_meter, runInsertReads_maxCacheSize] at h

/-- Claim C2 (confirmed).  After `insert_write(k, v)`, any sequence of
`insert_read` calls leaves the mutation tier untouched, and `get(k)`
consults the mutation tier first, so it still returns `v`. -/
theorem c2_writes_never_evicted (c : TCCache) (k : Key) (v : Value)
    (l : List (Key × Value)) :
    ((runInsertReads (c.insertWrite k v) l).get k).1 = some v := by
  have hm : (runInsertReads (c.insertWrite k v) l).mutsCached
      = alInsert c.mutsCached k v := by
    rw [runInsertReads_mutsCached]; rfl
  unfold TCCache.get
  rw [hm, alLookup_alInsert_self]

theorem alLookup_append_of_keys_ne {κ α : Type} [DecidableEq κ] (k : κ)
    (v : α) : ∀ (ys : List (κ × α)), (∀ p ∈ ys, p.1 ≠ k) →
    alLookup k (ys ++ [(k, v)]) = some v
  | [], _ => by simp [alLookup]
  | (k₁, v₁) :: tl, h => by
    have hne : ¬ k₁ = k := h (k₁, v₁) (List.mem_cons_self _ _)
    rw [List.cons_append, alLookup, if_neg hne]
    exact alLookup_append_of_keys_ne k v tl
      (fun p hp => h p (List.mem_cons_of_mem _ hp))

/-- Counterexample for claim C5.  With the count meter and `max_cache_size = 0`,
the very first `insert_read` triggers the eviction loop, which pops the
just-inserted entry itself: contrary to the claim, the entry is no longer
present when `insert_read` returns. -/
theorem c5_counterexample_oversize_insert_evicts_itself :
    alLookup (Key.hash 1)
        ((TCCache.new 0 countMeter).insertRead (Key.hash 1)
          (Value.int32 1)).readsCached = none ∧
      ((TCCache.new 0 countMeter).insertRead (Key.hash 1)
        (Value.int32 1)).readsCached = [] := ⟨rfl, rfl⟩

/-- Claim C5 (corrected).  The just-inserted entry is placed at the
most-recent position and is popped last, so when `insert_read` returns it
is still present unless the eviction loop emptied the whole read tier — in
that degenerate case (the tracked size still exceeding `max_cache_size`
after all older entries were popped) the entry itself is evicted by its own
insertion. -/
theorem c5_inserted_entry_present_or_tier_empty (c : TCCache) (k : Key)
    (v : Value) :
    alLookup k (c.insertRead k v).readsCached = some v ∨
      (c.insertRead k v).readsCached = [] := by
  obtain ⟨n, hn⟩ := evict_eq_drop c.meter c.maxCacheSize
    (alInsert c.readsCached k v) (c.currentCacheSize + c.meter k v)
  have hreads : (c.insertRead k v).readsCached
      = (alInsert c.readsCached k v).drop n := hn
  rw [hreads, alInsert, List.drop_append_eq_append_drop]
  by_cases hlen : n ≤ (alRemove k c.readsCached).length
  · left
    have hz : n - (alRemove k c.readsCached).length = 0 := by omega
    rw [hz, List.drop_zero]
    apply alLookup_append_of_keys_ne
    intro p hp hpk
    have hmem : p ∈ alRemove k c.readsCached := List.mem_of_mem_drop hp
    have : p.1 ∈ alKeys (alRemove k c.readsCached) :=
      List.mem_map_of_mem Prod.fst hmem
    rw [hpk] at this
    exact not_mem_alKeys_alRemove k c.readsCached this
  · right
    have h₁ : (alRemove k c.readsCached).drop n = [] :=
      List.drop_eq_nil_of_le (by omega)
    have h₂ : ([(k, v)] : List (Key × Value)).drop
        (n - (alRemove k c.readsCached).length) = [] :=
      List.drop_eq_nil_of_le (by simp; omega)
    rw [h₁, h₂]
    rfl

/-- Claim C9 (confirmed).  When `insert_read(k, v_new)` replaces an existing
read entry `(k, v_old)` (and no eviction is triggered), the tracked size
grows by the full weight of the new entry while the weight of the replaced entry
is never subtracted, so the tracked size strictly exceeds the
actual total weight of the read tier. -/
theorem c9_duplicate_insert_size_drift (c : TCCache) (k : Key)
    (vnew vold : Value)
    (hold : alLookup k c.readsCached = some vold)
    (hnd : (alKeys c.readsCached).Nodup)
    (hfit : c.currentCacheSize + c.meter k vnew ≤ c.maxCacheSize)
    (hinv : totalWeight c.meter c.readsCached ≤ c.currentCacheSize)
    (hpos : 0 < c.meter k vold) :
    (c.insertRead k vnew).currentCacheSize
        = c.currentCacheSize + c.meter k vnew ∧
      totalWeight c.meter (c.insertRead k vnew).readsCached
        = totalWeight c.meter c.readsCached - c.meter k vold
            + c.meter k vnew ∧
      totalWeight c.meter (c.insertRead k vnew).readsCached
        < (c.insertRead k vnew).currentCacheSize := by
  have hev : evict c.meter c.maxCacheSize (alInsert c.readsCached k vnew)
      (c.currentCacheSize + c.meter k vnew)
      = (alInsert c.readsCached k vnew,
        c.currentCacheSize + c.meter k vnew) :=
    evict_of_le _ _ _ _ hfit
  have hcur : (c.insertRead k vnew).currentCacheSize
      = c.currentCacheSize + c.meter k vnew := by
    unfold TCCache.insertRead
    dsimp only
    rw [hev]
  have hrd : (c.insertRead k vnew).readsCached
      = alInsert c.readsCached k vnew := by
    unfold TCCache.insertRead
    dsimp only
    rw [hev]
  have hwold := alLookup_weight_le c.meter k vold c.readsCached hold
  have hw : totalWeight c.meter (c.insertRead k vnew).readsCached
      = totalWeight c.meter c.readsCached - c.meter k vold
          + c.meter k vnew := by
    rw [hrd, alInsert, totalWeight_append,
      totalWeight_alRemove_of_nodup c.meter k vold c.readsCached hold hnd]
    simp only [totalWeight_cons, totalWeight_nil]
    omega
  refine ⟨hcur, hw, ?_⟩
  rw [hw, hcur]
  omega

/-- Witness for **C9**: a concrete cache (count meter, max 10) holding one
read entry for `Hash 1`; re-inserting the key leaves one entry of weight 1
but a tracked size of 2. -/
theorem c9_duplicate_insert_size_drift_witness :
    (TCCache.mk 10 1 [(Key.hash 1, Value.int32 1)] [] countMeter
          |>.insertRead (Key.hash 1) (Value.int32 2)).currentCacheSize
        = 1 + countMeter (Key.hash 1) (Value.int32 2) ∧
      totalWeight countMeter
          (TCCache.mk 10 1 [(Key.hash 1, Value.int32 1)] [] countMeter
            |>.insertRead (Key.hash 1) (Value.int32 2)).readsCached
        = totalWeight countMeter [(Key.hash 1, Value.int32 1)]
            - countMeter (Key.hash 1) (Value.int32 1)
            + countMeter (Key.hash 1) (Value.int32 2) ∧
      totalWeight countMeter
          (TCCache.mk 10 1 [(Key.hash 1, Value.int32 1)] [] countMeter
            |>.insertRead (Key.hash 1) (Value.int32 2)).readsCached
        < (TCCache.mk 10 1 [(Key.hash 1, Value.int32 1)] [] countMeter
            |>.insertRead (Key.hash 1) (Value.int32 2)).currentCacheSize :=
  c9_duplicate_insert_size_drift
    (TCCache.mk 10 1 [(Key.hash 1, Value.int32 1)] [] countMeter)
    (Key.hash 1) (Value.int32 2) (Value.int32 1) rfl
    (by simp) (by decide) (by decide) (by decide)

/-! ## Lemmas about the overlay (`TrackingCopy`) -/

theorem tcGet_ops {ε : Type} (r : Reader ε) (tc : TCState) (k : Key) :
    (tcGet r tc k).2.ops = tc.ops := rfl

theorem tcGet_fns {ε : Type} (r : Reader ε) (tc : TCState) (k : Key) :
    (tcGet r tc k).2.fns = tc.fns := rfl

theorem domEq_tcRead {ε : Type} (r : Reader ε) (tc : TCState) (k : Key)
    (h : domEq tc) : domEq (tcRead r tc k).2 := by
  unfold tcRead
  dsimp only
  split
  · intro k₀
    simp only [mem_alKeys_utilAdd, tcGet_ops, tcGet_fns]
    rw [h k₀]
  · exact h
  · exact h

theorem domEq_tcWrite (tc : TCState) (k : Key) (v : Value) (h : domEq tc) :
    domEq (tcWrite tc k v) := by
  intro k₀
  unfold tcWrite
  simp only [mem_alKeys_utilAdd]
  rw [h k₀]

theorem domEq_tcAdd {ε : Type} (r : Reader ε) (tc : TCState) (k : Key)
    (v : Value) (h : domEq tc) : domEq (tcAdd r tc k v).2 := by
  unfold tcAdd
  dsimp only
  split
  · exact h
  · exact h
  · split
    · exact h
    · split
      · intro k₀
        simp only [mem_alKeys_utilAdd, tcGet_ops, tcGet_fns]
        rw [h k₀]
      · exact h

theorem readKeyOrStop_state {ε : Type} (r : Reader ε) (tc : TCState)
    (k : Key) (i : Nat) :
    (readKeyOrStop r tc k i).2 = (tcRead r tc k).2 := by
  unfold readKeyOrStop
  dsimp only
  cases (tcRead r tc k).1 with
  | error e => rfl
  | ok ov => cases ov <;> rfl

theorem domEq_queryStep {ε : Type} (r : Reader ε) (tc : TCState)
    (curr : Value) (i : Nat) (name : String) (h : domEq tc) :
    domEq (queryStep r tc curr i name).2 := by
  unfold queryStep
  split
  · split
    · rw [readKeyOrStop_state]
      exact domEq_tcRead r tc _ h
    · exact h
  · split
    · rw [readKeyOrStop_state]
      exact domEq_tcRead r tc _ h
    · exact h
  · exact h

theorem domEq_queryFold {ε : Type} (r : Reader ε) :
    ∀ (path : List String) (tc : TCState) (curr : Value) (i : Nat),
      domEq tc → domEq (queryFold r tc curr i path).2
  | [], tc, curr, i, h => h
  | name :: rest, tc, curr, i, h => by
    unfold queryFold
    dsimp only
    split
    · exact domEq_queryFold r rest _ _ (i + 1)
        (domEq_queryStep r tc curr i name h)
    · exact domEq_queryStep r tc curr i name h

theorem domEq_tcQuery {ε : Type} (r : Reader ε) (tc : TCState)
    (baseKey : Key) (path : List String) (h : domEq tc) :
    domEq (tcQuery r tc baseKey path).2 := by
  unfold tcQuery
  dsimp only
  split
  · exact domEq_tcRead r tc baseKey h
  · exact domEq_tcRead r tc baseKey h
  · split
    · exact domEq_queryFold r path _ _ 0 (domEq_tcRead r tc baseKey h)
    · exact domEq_queryFold r path _ _ 0 (domEq_tcRead r tc baseKey h)
    · exact domEq_queryFold r path _ _ 0 (domEq_tcRead r tc baseKey h)

theorem domEq_runOp {ε : Type} (r : Reader ε) (tc : TCState) (op : TCOp)
    (h : domEq tc) : domEq (runOp r tc op) := by
  cases op with
  | read k => exact domEq_tcRead r tc k h
  | write k v => exact domEq_tcWrite tc k v h
  | add k v => exact domEq_tcAdd r tc k v h
  | query k path => exact domEq_tcQuery r tc k path h

theorem domEq_runOps {ε : Type} (r : Reader ε) :
    ∀ (l : List TCOp) (tc : TCState), domEq tc → domEq (runOps r l tc)
  | [], _, h => h
  | op :: rest, tc, h =>
    domEq_runOps r rest (runOp r tc op) (domEq_runOp r tc op h)

/-- Claim C3 (confirmed).  After every sequence of `read`, `write`, `add` and
`query` operations on a fresh `TrackingCopy`, the ops log and the
transforms log bind exactly the same keys: every operation records both an
op and a transform for a key, or neither. -/
theorem c3_ops_transforms_same_domain {ε : Type} (r : Reader ε)
    (l : List TCOp) (k : Key) :
    k ∈ alKeys (runOps r l TCState.new).ops ↔
      k ∈ alKeys (runOps r l TCState.new).fns :=
  domEq_runOps r l TCState.new (fun _ => Iff.rfl) k

/-- Branch characterization of `tcRead`: a hit joins `Read`/`Identity` into
the logs; a miss or a reader error forwards the `get` result and state. -/
theorem tcRead_cases {ε : Type} (r : Reader ε) (tc : TCState) (k : Key) :
    (∃ v, (tcGet r tc k.normalize).1 = .ok (some v) ∧
      tcRead r tc k = (.ok (some v),
        { (tcGet r tc k.normalize).2 with
          ops := utilAdd Op.join tc.ops k.normalize .read
          fns := utilAdd Transform.compose tc.fns k.normalize .identity })) ∨
    ((tcGet r tc k.normalize).1 = .ok none ∧
      tcRead r tc k = (.ok none, (tcGet r tc k.normalize).2)) ∨
    (∃ e, (tcGet r tc k.normalize).1 = .error e ∧
      tcRead r tc k = (.error e, (tcGet r tc k.normalize).2)) := by
  unfold tcRead
  dsimp only
  split
  next v heq => exact Or.inl ⟨v, heq, rfl⟩
  next heq => exact Or.inr (Or.inl ⟨heq, rfl⟩)
  next e heq => exact Or.inr (Or.inr ⟨e, heq, rfl⟩)

/-- Branch characterization of `tcAdd`: only the success branch touches the
logs, and it joins `Op::Add` and the derived transform at the normalized
key. -/
theorem tcAdd_cases {ε : Type} (r : Reader ε) (tc : TCState) (k : Key)
    (v : Value) :
    ((tcAdd r tc k v).1 = .ok .success ∧
      (∃ t, deriveTransform v = some t ∧
        (tcAdd r tc k v).2.ops = utilAdd Op.join tc.ops k.normalize .add ∧
        (tcAdd r tc k v).2.fns
          = utilAdd Transform.compose tc.fns k.normalize t)) ∨
    ((tcAdd r tc k v).1 ≠ .ok .success ∧
      (tcAdd r tc k v).2.ops = tc.ops ∧ (tcAdd r tc k v).2.fns = tc.fns) := by
  unfold tcAdd
  dsimp only
  split
  · exact Or.inr ⟨by simp, rfl, rfl⟩
  · exact Or.inr ⟨by simp, rfl, rfl⟩
  · split
    · exact Or.inr ⟨by simp, rfl, rfl⟩
    next t ht =>
      split
      · exact Or.inl ⟨rfl, t, ht, rfl, rfl⟩
      · exact Or.inr ⟨by simp, rfl, rfl⟩

/-- Claim C4 (confirmed).  When `add` returns `KeyNotFound` or
`TypeMismatch` — a missing key, a non-addable addend variant, or a failing
`apply` — the ops and transforms logs are exactly as they were before the
call. -/
theorem c4_add_failure_preserves_logs {ε : Type} (r : Reader ε)
    (tc : TCState) (k : Key) (v : Value)
    (h : (∃ k₁, (tcAdd r tc k v).1 = .ok (.keyNotFound k₁)) ∨
      (∃ tm, (tcAdd r tc k v).1 = .ok (.typeMismatch tm))) :
    (tcAdd r tc k v).2.ops = tc.ops ∧ (tcAdd r tc k v).2.fns = tc.fns := by
  rcases tcAdd_cases r tc k v with ⟨hs, _⟩ | ⟨_, hops, hfns⟩
  · rcases h with ⟨k₁, hk⟩ | ⟨tm, hk⟩ <;> rw [hs] at hk <;> simp at hk
  · exact ⟨hops, hfns⟩

/-- Witness for **C4**: a reader that finds nothing makes `add` return
`KeyNotFound`, and the logs of a fresh overlay stay empty. -/
theorem c4_add_failure_preserves_logs_witness :
    (tcAdd (fun _ => Except.ok none : Reader Unit) TCState.new
        (Key.hash 1) (Value.int32 3)).1
      = .ok (.keyNotFound (Key.hash 1)) ∧
    (tcAdd (fun _ => Except.ok none : Reader Unit) TCState.new
        (Key.hash 1) (Value.int32 3)).2.ops = TCState.new.ops ∧
    (tcAdd (fun _ => Except.ok none : Reader Unit) TCState.new
        (Key.hash 1) (Value.int32 3)).2.fns = TCState.new.fns :=
  ⟨rfl,
    c4_add_failure_preserves_logs (fun _ => Except.ok none) TCState.new
      (Key.hash 1) (Value.int32 3) (Or.inl ⟨Key.hash 1, rfl⟩)⟩

/-- Counterexample for claim C6.  Reader holds `Int32(0)`; after `read(k)` (which
finds the value) and a successful `add(k, Int32(3))`, `ops[k]` is **not**
`Op::Add` — the op join of the repository (pinned by its test
`tracking_copy_ra`) sends `Read ⊔ Add` to `Write`. -/
theorem c6_counterexample_read_add_op_not_add :
    (tcRead (fun _ => Except.ok (some (Value.int32 0)) : Reader Unit)
        TCState.new (Key.hash 0)).1 = .ok (some (Value.int32 0)) ∧
    (tcAdd (fun _ => Except.ok (some (Value.int32 0)) : Reader Unit)
        ((tcRead (fun _ => Except.ok (some (Value.int32 0)) : Reader Unit)
          TCState.new (Key.hash 0)).2)
        (Key.hash 0) (Value.int32 3)).1 = .ok .success ∧
    ¬ (alLookup (Key.hash 0)
        (tcAdd (fun _ => Except.ok (some (Value.int32 0)) : Reader Unit)
          ((tcRead (fun _ => Except.ok (some (Value.int32 0)) : Reader Unit)
            TCState.new (Key.hash 0)).2)
          (Key.hash 0) (Value.int32 3)).2.ops = some Op.add) := by
  refine ⟨rfl, rfl, ?_⟩
  decide

/-- Claim C6 (corrected).  The op join maps `Read ⊔ Add` to `Write`: after a
read of `k` that found a value (so `ops[k] = Read`) and a successful `add`
on `k` with no intervening write, `ops[k]` equals `Op::Write`. -/
theorem c6_read_then_add_joins_to_write {ε : Type} (r : Reader ε)
    (tc : TCState) (k : Key) (v : Value)
    (hprev : alLookup k.normalize tc.ops = some Op.read)
    (hs : (tcAdd r tc k v).1 = .ok .success) :
    alLookup k.normalize (tcAdd r tc k v).2.ops = some Op.write := by
  rcases tcAdd_cases r tc k v with ⟨_, _, _, hops, _⟩ | ⟨hns, _, _⟩
  · rw [hops]
    exact alLookup_utilAdd_present Op.join tc.ops k.normalize .add .read hprev
  · exact absurd hs hns

/-- Witness for **C6**: the concrete read-then-add run, where `ops[k]` ends
as `Op::Write`. -/
theorem c6_read_then_add_joins_to_write_witness :
    alLookup (Key.hash 0)
        (tcAdd (fun _ => Except.ok (some (Value.int32 0)) : Reader Unit)
          ((tcRead (fun _ => Except.ok (some (Value.int32 0)) : Reader Unit)
            TCState.new (Key.hash 0)).2)
          (Key.hash 0) (Value.int32 3)).2.ops = some Op.write :=
  c6_read_then_add_joins_to_write
    (fun _ => Except.ok (some (Value.int32 0)))
    ((tcRead (fun _ => Except.ok (some (Value.int32 0)) : Reader Unit)
      TCState.new (Key.hash 0)).2)
    (Key.hash 0) (Value.int32 3) rfl rfl

/-- Claim C7 (confirmed).  The `read` operation normalizes its key and delegates to `get`
under the normalized key: when the lookup finds a value it returns it and
joins `Op::Read` into `ops` and `Transform::Identity` into `transforms` at
the normalized key; when the lookup finds nothing it returns `None` and
leaves both logs unchanged. -/
theorem c7_read_records_identity_on_hit {ε : Type} (r : Reader ε)
    (tc : TCState) (k : Key) :
    (∀ v, (tcGet r tc k.normalize).1 = .ok (some v) →
      (tcRead r tc k).1 = .ok (some v) ∧
      (tcRead r tc k).2.ops = utilAdd Op.join tc.ops k.normalize .read ∧
      (tcRead r tc k).2.fns
        = utilAdd Transform.compose tc.fns k.normalize .identity) ∧
    ((tcGet r tc k.normalize).1 = .ok none →
      (tcRead r tc k).1 = .ok none ∧
      (tcRead r tc k).2.ops = tc.ops ∧ (tcRead r tc k).2.fns = tc.fns) := by
  rcases tcRead_cases r tc k with ⟨v, hg, he⟩ | ⟨hg, he⟩ | ⟨e, hg, he⟩
  · constructor
    · intro w hw
      rw [hg] at hw
      injection hw with hw
      injection hw with hw
      subst hw
      rw [he]
      exact ⟨rfl, rfl, rfl⟩
    · intro hn
      rw [hg] at hn
      simp at hn
  · constructor
    · intro w hw
      rw [hg] at hw
      simp at hw
    · intro _
      rw [he]
      exact ⟨rfl, tcGet_ops r tc k.normalize, tcGet_fns r tc k.normalize⟩
  · constructor
    · intro w hw
      rw [hg] at hw
      simp at hw
    · intro hn
      rw [hg] at hn
      simp at hn

/-- Witness for **C7**: a reader holding `Int32(0)`; the hit branch of the
specification applied to a fresh overlay. -/
theorem c7_read_records_identity_on_hit_witness :
    (tcRead (fun _ => Except.ok (some (Value.int32 0)) : Reader Unit)
        TCState.new (Key.hash 0)).1 = .ok (some (Value.int32 0)) ∧
    (tcRead (fun _ => Except.ok (some (Value.int32 0)) : Reader Unit)
        TCState.new (Key.hash 0)).2.ops
      = utilAdd Op.join TCState.new.ops (Key.hash 0).normalize .read ∧
    (tcRead (fun _ => Except.ok (some (Value.int32 0)) : Reader Unit)
        TCState.new (Key.hash 0)).2.fns
      = utilAdd Transform.compose TCState.new.fns (Key.hash 0).normalize
          .identity :=
  (c7_read_records_identity_on_hit
    (fun _ => Except.ok (some (Value.int32 0))) TCState.new
    (Key.hash 0)).1 (Value.int32 0) rfl

/-- Claim C8 (confirmed).  Calling `query(k, [])` is `read(k)` up to wrapping: the
resulting overlay state is identical, a hit wraps the value in `Success`, a
miss yields `ValueNotFound`, and a reader error surfaces unchanged. -/
theorem c8_query_empty_path_equals_read {ε : Type} (r : Reader ε)
    (tc : TCState) (k : Key) :
    (tcQuery r tc k []).2 = (tcRead r tc k).2 ∧
    (∀ v, (tcRead r tc k).1 = .ok (some v) →
      (tcQuery r tc k []).1 = .ok (.success v)) ∧
    ((tcRead r tc k).1 = .ok none →
      (tcQuery r tc k []).1 = .ok (.valueNotFound (errorPathMsg k [] "" 0))) ∧
    (∀ e, (tcRead r tc k).1 = .error e → (tcQuery r tc k []).1 = .error e) := by
  unfold tcQuery
  dsimp only
  split
  next e heq =>
    refine ⟨rfl, ?_, ?_, ?_⟩
    · intro v hv
      rw [heq] at hv
      simp at hv
    · intro hn
      rw [heq] at hn
      simp at hn
    · intro e₁ he₁
      rw [heq] at he₁
      injection he₁ with he₁
      subst he₁
      rfl
  next heq =>
    refine ⟨rfl, ?_, ?_, ?_⟩
    · intro v hv
      rw [heq] at hv
      simp at hv
    · intro _
      rfl
    · intro e₁ he₁
      rw [heq] at he₁
      simp at he₁
  next baseValue heq =>
    refine ⟨rfl, ?_, ?_, ?_⟩
    · intro v hv
      rw [heq] at hv
      injection hv with hv
      injection hv with hv
      subst hv
      rfl
    · intro hn
      rw [heq] at hn
      simp at hn
    · intro e₁ he₁
      rw [heq] at he₁
      simp at he₁

/-- Witness for **C8**: a reader holding `Int32(0)`; `query` with the empty
path succeeds with the base value and leaves the same state as `read`. -/
theorem c8_query_empty_path_equals_read_witness :
    (tcQuery (fun _ => Except.ok (some (Value.int32 0)) : Reader Unit)
        TCState.new (Key.hash 0) []).2
      = (tcRead (fun _ => Except.ok (some (Value.int32 0)) : Reader Unit)
          TCState.new (Key.hash 0)).2 ∧
    (tcQuery (fun _ => Except.ok (some (Value.int32 0)) : Reader Unit)
        TCState.new (Key.hash 0) []).1
      = .ok (.success (Value.int32 0)) :=
  ⟨(c8_query_empty_path_equals_read
      (fun _ => Except.ok (some (Value.int32 0))) TCState.new
      (Key.hash 0)).1,
    (c8_query_empty_path_equals_read
      (fun _ => Except.ok (some (Value.int32 0))) TCState.new
      (Key.hash 0)).2.1 (Value.int32 0) rfl⟩

/-- Claim C10 (confirmed).  The `get` operation does not normalize its key, unlike `read`,
`write` and `add`: after `write(k, v)` with a URef key `k` carrying access
rights (staged under the normalized, rights-stripped key), a direct `get`
with the raw `k` misses both cache tiers and returns whatever the backing reader answers, while `read(k)` normalizes and returns the staged value. -/
theorem c10_get_does_not_normalize {ε : Type} (r : Reader ε) (tc : TCState)
    (id rts : Nat) (v : Value)
    (hm : alLookup (Key.uref id (some rts)) tc.cache.mutsCached = none)
    (hr : alLookup (Key.uref id (some rts)) tc.cache.readsCached = none) :
    (tcGet r (tcWrite tc (Key.uref id (some rts)) v)
        (Key.uref id (some rts))).1 = r (Key.uref id (some rts)) ∧
    (tcRead r (tcWrite tc (Key.uref id (some rts)) v)
        (Key.uref id (some rts))).1 = .ok (some v) := by
  have hne : (Key.uref id (some rts)) ≠ (Key.uref id none) := by simp
  have hm₂ : alLookup (Key.uref id (some rts))
      (tcWrite tc (Key.uref id (some rts)) v).cache.mutsCached = none := by
    show alLookup (Key.uref id (some rts))
      (alInsert tc.cache.mutsCached (Key.uref id none) v) = none
    rw [alLookup_alInsert_ne tc.cache.mutsCached (Key.uref id none)
      (Key.uref id (some rts)) v hne]
    exact hm
  have hr₂ : alLookup (Key.uref id (some rts))
      (tcWrite tc (Key.uref id (some rts)) v).cache.readsCached = none := hr
  constructor
  · unfold tcGet cacheGetOrRead TCCache.get
    rw [hm₂, hr₂]
    dsimp only
    cases hrk : r (Key.uref id (some rts)) with
    | error e => rfl
    | ok ov => cases ov <;> rfl
  · have hmn : alLookup (Key.uref id (some rts)).normalize
        (tcWrite tc (Key.uref id (some rts)) v).cache.mutsCached
        = some v := by
      show alLookup (Key.uref id none)
        (alInsert tc.cache.mutsCached (Key.uref id none) v) = some v
      exact alLookup_alInsert_self tc.cache.mutsCached (Key.uref id none) v
    have hget : (tcGet r (tcWrite tc (Key.uref id (some rts)) v)
        (Key.uref id (some rts)).normalize).1 = .ok (some v) := by
      unfold tcGet cacheGetOrRead TCCache.get
      rw [hmn]
    rcases tcRead_cases r (tcWrite tc (Key.uref id (some rts)) v)
        (Key.uref id (some rts)) with ⟨w, hg, he⟩ | ⟨hg, he⟩ | ⟨e, hg, he⟩
    · rw [hget] at hg
      injection hg with hg
      injection hg with hg
      rw [he, hg]
    · rw [hget] at hg
      simp at hg
    · rw [hget] at hg
      simp at hg

/-- Witness for **C10**: the backing reader answers `Int32(9)`; after
staging `Int32(5)` under the normalized URef, the raw-keyed `get` returns
the `Int32(9)` of the reader while `read` returns the staged `Int32(5)`. -/
theorem c10_get_does_not_normalize_witness :
    (tcGet (fun _ => Except.ok (some (Value.int32 9)) : Reader Unit)
        (tcWrite TCState.new (Key.uref 1 (some 0)) (Value.int32 5))
        (Key.uref 1 (some 0))).1 = .ok (some (Value.int32 9)) ∧
    (tcRead (fun _ => Except.ok (some (Value.int32 9)) : Reader Unit)
        (tcWrite TCState.new (Key.uref 1 (some 0)) (Value.int32 5))
        (Key.uref 1 (some 0))).1 = .ok (some (Value.int32 5)) :=
  c10_get_does_not_normalize (fun _ => Except.ok (some (Value.int32 9)))
    TCState.new 1 0 (Value.int32 5) rfl rfl

end CL
